import Mathlib

/-!
Verification of the return/risk pipeline in
src/predicting-risk-return-on-financial-investment.py.

The script loads two CSV tables (stock prices, benchmark prices), drops
rows with missing values, computes day-over-day percentage returns with
pandas pct_change, subtracts the benchmark return series from the stock
return frame with index alignment, and divides the mean of the excess
returns by their (sample, ddof = 1) standard deviation, finally scaling
by an annualization factor (np.sqrt 252 in the script).

The shallow embedding models pandas float values by the type EF:
a value is NaN, +inf, -inf, or a finite number (modelled exactly as a
rational; float rounding is abstracted away, the NaN/inf structure is
kept).  Arithmetic on EF follows IEEE-754/numpy semantics: NaN is
absorbing, finite/0 gives a signed infinity (NaN for 0/0), and the
pandas statistics skip NaN entries (mean and std over the non-NaN
entries; std returns NaN when fewer than 2 observations remain, as
pandas does with its default ddof = 1).

The square-root routine applied to the variance is kept as an explicit
parameter (s : Rat -> Rat); theorems that depend on it assume only the
facts true of the float sqrt at the arguments involved (s 0 = 0,
positivity on positives).
-/

/-- A pandas/numpy float value: NaN, a signed infinity, or a finite
number (modelled exactly as a rational). -/
inductive EF where
  | nan : EF
  | pinf : EF
  | ninf : EF
  | fin : ℚ → EF
deriving DecidableEq, Repr

namespace EF

/-- IEEE addition: NaN absorbs, inf + (-inf) = NaN. -/
def add : EF → EF → EF
  | nan, _ => nan
  | _, nan => nan
  | pinf, ninf => nan
  | ninf, pinf => nan
  | pinf, _ => pinf
  | _, pinf => pinf
  | ninf, _ => ninf
  | _, ninf => ninf
  | fin a, fin b => fin (a + b)

/-- IEEE subtraction: NaN absorbs, inf - inf = NaN. -/
def sub : EF → EF → EF
  | nan, _ => nan
  | _, nan => nan
  | pinf, pinf => nan
  | ninf, ninf => nan
  | pinf, _ => pinf
  | _, pinf => ninf
  | ninf, _ => ninf
  | _, ninf => pinf
  | fin a, fin b => fin (a - b)

/-- IEEE multiplication: NaN absorbs, inf * 0 = NaN. -/
def mul : EF → EF → EF
  | nan, _ => nan
  | _, nan => nan
  | pinf, pinf => pinf
  | pinf, ninf => ninf
  | ninf, pinf => ninf
  | ninf, ninf => pinf
  | pinf, fin b => if 0 < b then pinf else if b < 0 then ninf else nan
  | fin a, pinf => if 0 < a then pinf else if a < 0 then ninf else nan
  | ninf, fin b => if 0 < b then ninf else if b < 0 then pinf else nan
  | fin a, ninf => if 0 < a then ninf else if a < 0 then pinf else nan
  | fin a, fin b => fin (a * b)

/-- IEEE/numpy division: NaN absorbs, finite/0 is a signed infinity
(NaN for 0/0), inf/inf = NaN, finite/inf = 0. -/
def div : EF → EF → EF
  | nan, _ => nan
  | _, nan => nan
  | pinf, pinf => nan
  | pinf, ninf => nan
  | ninf, pinf => nan
  | ninf, ninf => nan
  | pinf, fin b => if 0 ≤ b then pinf else ninf
  | ninf, fin b => if 0 ≤ b then ninf else pinf
  | fin _, pinf => fin 0
  | fin _, ninf => fin 0
  | fin a, fin b =>
      if b = 0 then (if 0 < a then pinf else if a < 0 then ninf else nan)
      else fin (a / b)

/-- Squaring, used for squared deviations from the mean. -/
def sq (x : EF) : EF := mul x x

/-- float sqrt lifted to EF, parameterized by the finite routine s:
sqrt NaN = NaN, sqrt (+inf) = +inf, sqrt of a negative is NaN. -/
def sqrtE (s : ℚ → ℚ) : EF → EF
  | nan => nan
  | pinf => pinf
  | ninf => nan
  | fin q => if q < 0 then nan else fin (s q)

end EF

/-- The non-NaN entries of a list of values (pandas skipna keeps
infinities, drops only NaN). -/
def nonNan : List EF → List EF
  | [] => []
  | EF.nan :: l => nonNan l
  | x :: l => x :: nonNan l

/-- The finite part of a value, if any. -/
def finPart : EF → Option ℚ
  | EF.fin q => some q
  | _ => none

/-- The finite entries of a list of values. -/
def finVals (l : List EF) : List ℚ := l.filterMap finPart

/-- pandas Series.mean with skipna: the sum of the non-NaN entries
divided by their count; NaN when no entry remains. -/
def meanE (l : List EF) : EF :=
  let xs := nonNan l
  if xs.length = 0 then EF.nan
  else EF.div (xs.foldl EF.add (EF.fin 0)) (EF.fin xs.length)

/-- pandas Series.var with skipna and the default ddof = 1: the sum of
squared deviations from the mean over the non-NaN entries, divided by
count - 1; NaN when fewer than 2 entries remain.  (Series.std is the
square root of this.) -/
def varE (l : List EF) : EF :=
  let xs := nonNan l
  if xs.length ≤ 1 then EF.nan
  else
    EF.div ((xs.map (fun x => EF.sq (EF.sub x (meanE l)))).foldl EF.add (EF.fin 0))
      (EF.fin ((xs.length : ℚ) - 1))

/-- Exact mean of a list of rationals. -/
def meanQ (xs : List ℚ) : ℚ := xs.sum / xs.length

/-- Exact sample variance (ddof = 1) of a list of rationals. -/
def varQ (xs : List ℚ) : ℚ :=
  ((xs.map (fun x => (x - meanQ xs) ^ 2)).sum) / ((xs.length : ℚ) - 1)

/-- A date-indexed series of raw CSV cells: a cell is missing (none) or
a finite number. -/
abbrev RawTable := List (ℕ × Option ℚ)

/-- A date-indexed series of finite values (after dropna). -/
abbrev Table := List (ℕ × ℚ)

/-- A date-indexed series of float values (a return series). -/
abbrev ETable := List (ℕ × EF)

/-- pandas DataFrame.dropna on a single-column table: keep exactly the
rows whose value is present. -/
def dropna (raw : RawTable) : Table :=
  raw.filterMap (fun r => r.2.map (fun q => (r.1, q)))

/-- The value part of pandas pct_change on a column of finite prices,
in the row order given: the first row is NaN, and row i (i >= 1) is
price i / price (i-1) - 1 computed in float arithmetic. -/
def pctChangeVals : List ℚ → List EF
  | [] => []
  | p :: ps => EF.nan :: pctGo p ps
where
  /-- Returns of the remaining rows given the previous price. -/
  pctGo : ℚ → List ℚ → List EF
  | _, [] => []
  | prev, q :: qs =>
      EF.sub (EF.div (EF.fin q) (EF.fin prev)) (EF.fin 1) :: pctGo q qs

/-- pandas pct_change on a date-indexed column: dates are kept, values
are the consecutive-row percentage changes. -/
def pctChangeT (t : Table) : ETable :=
  (t.map Prod.fst).zip (pctChangeVals (t.map Prod.snd))

/-- The script's stock_returns for one asset column:
stock_data.pct_change(). -/
def stock_returns (stock_data : Table) : ETable := pctChangeT stock_data

/-- The script's sp_returns: benchmark_data.pct_change() on the single
benchmark column. -/
def sp_returns (benchmark_data : Table) : ETable := pctChangeT benchmark_data

/-- The dates of a return series. -/
def keysE (t : ETable) : List ℕ := t.map Prod.fst

/-- Label lookup in a return series: the value at the first row whose
date is d, NaN when the date is absent (pandas reindexing fills missing
labels with NaN). -/
def lookupE (t : ETable) (d : ℕ) : EF :=
  match t with
  | [] => EF.nan
  | r :: rs => if r.1 = d then r.2 else lookupE rs d

/-- Insertion of a date into a sorted date list. -/
def insertKey (d : ℕ) : List ℕ → List ℕ
  | [] => [d]
  | x :: xs => if d ≤ x then d :: x :: xs else x :: insertKey d xs

/-- Insertion sort of a date list (ascending). -/
def sortKeys : List ℕ → List ℕ
  | [] => []
  | x :: xs => insertKey x (sortKeys xs)

/-- The union of the two series' date sets, as produced by pandas
alignment (sorted, each date once). -/
def unionKeys (a b : ETable) : List ℕ :=
  (sortKeys (keysE a ++ keysE b)).dedup

/-- pandas Series.sub with index alignment: the result is indexed by the
union of the dates, and a date missing from either side yields NaN. -/
def alignSub (a b : ETable) : ETable :=
  (unionKeys a b).map (fun d => (d, EF.sub (lookupE a d) (lookupE b d)))

/-- The script's excess_returns for one asset column:
stock_returns.sub(sp_returns, axis=0). -/
def excess_returns (sr spr : ETable) : ETable := alignSub sr spr

/-- The values of a return series (its column, index dropped). -/
def valsE (t : ETable) : List EF := t.map Prod.snd

/-- The script's avg_excess_return for one asset:
excess_returns.mean(). -/
def avg_excess_return (ex : ETable) : EF := meanE (valsE ex)

/-- The script's sd_excess_return for one asset:
excess_returns.std(), i.e. the float square root (the routine s) of the
ddof = 1 variance. -/
def sd_excess_return (s : ℚ → ℚ) (ex : ETable) : EF :=
  EF.sqrtE s (varE (valsE ex))

/-- The script's daily_sharpe_ratio for one asset:
avg_excess_return.div(sd_excess_return). -/
def daily_sharpe_ratio (s : ℚ → ℚ) (ex : ETable) : EF :=
  EF.div (avg_excess_return ex) (sd_excess_return s ex)

/-- The script's annual_sharpe_ratio for one asset:
daily_sharpe_ratio.mul(annual_factor), the factor being np.sqrt 252 in
the script (an arbitrary finite scalar here). -/
def annual_sharpe_ratio (s : ℚ → ℚ) (factor : ℚ) (ex : ETable) : EF :=
  EF.mul (daily_sharpe_ratio s ex) (EF.fin factor)

/-- The whole pipeline for one asset, from the raw CSV rows to the
daily ratio. -/
def asset_daily (s : ℚ → ℚ) (rawStock rawBench : RawTable) : EF :=
  daily_sharpe_ratio s
    (excess_returns (stock_returns (dropna rawStock)) (sp_returns (dropna rawBench)))

/-- The whole pipeline for one asset, from the raw CSV rows to the
annualized ratio. -/
def asset_annual (s : ℚ → ℚ) (factor : ℚ) (rawStock rawBench : RawTable) : EF :=
  annual_sharpe_ratio s factor
    (excess_returns (stock_returns (dropna rawStock)) (sp_returns (dropna rawBench)))

/-- A value free of infinities: finite or NaN. -/
def noInf : EF → Bool
  | EF.nan => true
  | EF.fin _ => true
  | _ => false

/-- A list of values is tame when every entry is finite or NaN (the
normal situation: return series over nonzero prices). -/
def tameL (l : List EF) : Prop := ∀ x ∈ l, noInf x = true

/-- The inner join of two return series on their dates, keeping the
dates where both sides hold a finite value, as the list of differences
asset minus benchmark. -/
def innerDiffQ (a b : ETable) : List ℚ :=
  a.filterMap (fun r =>
    match r.2, lookupE b r.1 with
    | EF.fin x, EF.fin y => some (x - y)
    | _, _ => none)

/-- A two-asset price frame after load: each date carries the two
stock prices (the script's stock_data has the two columns FB, AMZN). -/
abbrev Frame2 := List (ℕ × ℚ × ℚ)

/-- A two-asset float frame (a two-column return series). -/
abbrev EFrame2 := List (ℕ × EF × EF)

/-- The second column of a price frame, as a single-asset table. -/
def col2 (f : Frame2) : Table := f.map (fun r => (r.1, r.2.2))

/-- The second column of a float frame, as a single-asset series. -/
def ecol2 (g : EFrame2) : ETable := g.map (fun r => (r.1, r.2.2))

/-- pandas DataFrame.pct_change on a two-column frame: dates kept, each
column's consecutive-row percentage changes computed column-wise. -/
def pctChangeF (f : Frame2) : EFrame2 :=
  (f.map Prod.fst).zip
    ((pctChangeVals (f.map (fun r => r.2.1))).zip
      (pctChangeVals (f.map (fun r => r.2.2))))

/-- Frame lookup by date: the pair at the first row with date d,
(NaN, NaN) when the date is absent. -/
def lookupF (g : EFrame2) (d : ℕ) : EF × EF :=
  match g with
  | [] => (EF.nan, EF.nan)
  | r :: rs => if r.1 = d then r.2 else lookupF rs d

/-- Dates of the aligned frame-minus-series result. -/
def unionKeysF (g : EFrame2) (b : ETable) : List ℕ :=
  (sortKeys (g.map Prod.fst ++ keysE b)).dedup

/-- pandas DataFrame.sub(series, axis=0): align on the union of dates
and subtract the series from each column; absent dates give NaN. -/
def alignSubF (g : EFrame2) (b : ETable) : EFrame2 :=
  (unionKeysF g b).map (fun d =>
    (d, EF.sub (lookupF g d).1 (lookupE b d), EF.sub (lookupF g d).2 (lookupE b d)))

/-- The script's daily_sharpe_ratio on the two-asset frame: mean over
std per column of the aligned excess-return frame. -/
def frame_daily (s : ℚ → ℚ) (f : Frame2) (bench : Table) : EF × EF :=
  (EF.div (meanE ((alignSubF (pctChangeF f) (sp_returns bench)).map (fun r => r.2.1)))
      (EF.sqrtE s (varE ((alignSubF (pctChangeF f) (sp_returns bench)).map (fun r => r.2.1)))),
   EF.div (meanE ((alignSubF (pctChangeF f) (sp_returns bench)).map (fun r => r.2.2)))
      (EF.sqrtE s (varE ((alignSubF (pctChangeF f) (sp_returns bench)).map (fun r => r.2.2)))))

/-- The script's annual_sharpe_ratio on the two-asset frame: each
column's daily ratio multiplied by the annualization factor. -/
def frame_annual (s : ℚ → ℚ) (factor : ℚ) (f : Frame2) (bench : Table) : EF × EF :=
  (EF.mul (frame_daily s f bench).1 (EF.fin factor),
   EF.mul (frame_daily s f bench).2 (EF.fin factor))

theorem foldl_add_fin (qs : List ℚ) (c : ℚ) :
    (qs.map EF.fin).foldl EF.add (EF.fin c) = EF.fin (c + qs.sum) := by
  induction qs generalizing c with
  | nil => simp
  | cons q qs ih =>
      simp only [List.map_cons, List.foldl_cons, EF.add, List.sum_cons]
      rw [ih]
      ring_nf

theorem nonNan_tame (l : List EF) (h : tameL l) :
    nonNan l = (finVals l).map EF.fin := by
  induction l with
  | nil => simp [nonNan, finVals]
  | cons x l ih =>
      have hx : noInf x = true := h x (List.mem_cons_self x l)
      have hl : tameL l := fun y hy => h y (List.mem_cons_of_mem x hy)
      cases x with
      | nan => simpa [nonNan, finVals, finPart] using ih hl
      | pinf => simp [noInf] at hx
      | ninf => simp [noInf] at hx
      | fin q => simpa [nonNan, finVals, finPart] using ih hl

theorem meanE_tame (l : List EF) (h : tameL l) :
    meanE l =
      if (finVals l).length = 0 then EF.nan else EF.fin (meanQ (finVals l)) := by
  unfold meanE
  rw [nonNan_tame l h]
  by_cases hz : (finVals l).length = 0
  · simp [hz]
  · simp only [List.length_map, hz, if_false]
    rw [foldl_add_fin]
    have hlen : ((finVals l).length : ℚ) ≠ 0 := by
      exact_mod_cast hz
    simp [EF.div, hlen, meanQ, zero_add]

theorem sq_sub_fin (q m : ℚ) :
    EF.sq (EF.sub (EF.fin q) (EF.fin m)) = EF.fin ((q - m) ^ 2) := by
  simp only [EF.sub, EF.sq, EF.mul, EF.fin.injEq]
  ring

theorem map_dev_fin (qs : List ℚ) (m : ℚ) :
    (qs.map EF.fin).map (fun x => EF.sq (EF.sub x (EF.fin m)))
      = (qs.map (fun q => (q - m) ^ 2)).map EF.fin := by
  induction qs with
  | nil => simp
  | cons q qs ih =>
      simp only [List.map_cons, sq_sub_fin, ih]

theorem meanE_cons_nan (l : List EF) : meanE (EF.nan :: l) = meanE l := rfl

theorem varE_cons_nan (l : List EF) : varE (EF.nan :: l) = varE l := rfl

theorem finVals_cons_nan (l : List EF) : finVals (EF.nan :: l) = finVals l := rfl

theorem finVals_map_fin (qs : List ℚ) : finVals (qs.map EF.fin) = qs := by
  induction qs with
  | nil => rfl
  | cons q qs ih =>
      simp only [List.map_cons, finVals, List.filterMap_cons] at ih ⊢
      simp [finPart, ih]

theorem pctGo_closed (prev : ℚ) (ps : List ℚ) (hprev : prev ≠ 0)
    (h : ∀ x ∈ ps, x ≠ 0) :
    pctChangeVals.pctGo prev ps
      = ((prev :: ps).zip ps).map (fun pr => EF.fin (pr.2 / pr.1 - 1)) := by
  induction ps generalizing prev with
  | nil => simp [pctChangeVals.pctGo]
  | cons q qs ih =>
      have hq : q ≠ 0 := h q (List.mem_cons_self q qs)
      have hqs : ∀ x ∈ qs, x ≠ 0 := fun y hy => h y (List.mem_cons_of_mem q hy)
      simp only [pctChangeVals.pctGo, List.zip_cons_cons, List.map_cons]
      rw [ih q hq hqs]
      simp [EF.div, EF.sub, hprev]

theorem pctChangeVals_closed (a : ℚ) (ps : List ℚ)
    (h : ∀ x ∈ a :: ps, x ≠ 0) :
    pctChangeVals (a :: ps)
      = EF.nan :: (((a :: ps).zip ps).map (fun pr => EF.fin (pr.2 / pr.1 - 1))) := by
  have ha : a ≠ 0 := h a (List.mem_cons_self a ps)
  have hps : ∀ x ∈ ps, x ≠ 0 := fun y hy => h y (List.mem_cons_of_mem a hy)
  simp only [pctChangeVals]
  rw [pctGo_closed a ps ha hps]

theorem varE_tame (l : List EF) (h : tameL l) :
    varE l =
      if (finVals l).length ≤ 1 then EF.nan else EF.fin (varQ (finVals l)) := by
  unfold varE
  rw [nonNan_tame l h]
  by_cases h1 : (finVals l).length ≤ 1
  · simp [h1]
  · have h2 : 2 ≤ (finVals l).length := by omega
    have hne : (finVals l).length ≠ 0 := by omega
    simp only [List.length_map, h1, if_false]
    rw [meanE_tame l h]
    simp only [hne, if_false]
    rw [map_dev_fin, foldl_add_fin]
    have hden : ((finVals l).length : ℚ) - 1 ≠ 0 := by
      have : (2 : ℚ) ≤ ((finVals l).length : ℚ) := by exact_mod_cast h2
      linarith
    simp [EF.div, hden, varQ, zero_add, meanQ]

/-- C1: for every price column of strictly positive prices and every row
index i >= 1, pct_change at row i equals price i / price (i-1) - 1; the
first row carries no return value (NaN), and that first row is excluded
from the downstream statistics: the mean and the ddof = 1 variance of
the return series coincide with those of the list of actual returns
(rows 1 onward). -/
theorem pct_change_row_values (a : ℚ) (ps : List ℚ)
    (hpos : ∀ x ∈ a :: ps, 0 < x) :
    (pctChangeVals (a :: ps))[0]? = some EF.nan
    ∧ (∀ i : ℕ, 1 ≤ i → ∀ hi : i < (a :: ps).length,
        (pctChangeVals (a :: ps))[i]?
          = some (EF.fin ((a :: ps)[i] / (a :: ps)[i - 1] - 1)))
    ∧ finVals (pctChangeVals (a :: ps))
        = ((a :: ps).zip ps).map (fun pr => pr.2 / pr.1 - 1)
    ∧ meanE (pctChangeVals (a :: ps))
        = meanE ((((a :: ps).zip ps).map (fun pr => pr.2 / pr.1 - 1)).map EF.fin)
    ∧ varE (pctChangeVals (a :: ps))
        = varE ((((a :: ps).zip ps).map (fun pr => pr.2 / pr.1 - 1)).map EF.fin) := by
  have hne : ∀ x ∈ a :: ps, x ≠ 0 := fun x hx => (hpos x hx).ne'
  have closed := pctChangeVals_closed a ps hne
  refine ⟨?_, ?_, ?_, ?_, ?_⟩
  · rw [closed]; simp
  · intro i h1 hi
    obtain ⟨j, rfl⟩ : ∃ j, i = j + 1 := ⟨i - 1, by omega⟩
    rw [closed]
    have hj : j < ps.length := by simpa using hi
    have hzl : j < (((a :: ps).zip ps).map (fun pr => EF.fin (pr.2 / pr.1 - 1))).length := by
      simp [List.length_zip]; omega
    rw [List.getElem?_cons_succ, List.getElem?_eq_getElem hzl]
    simp [List.getElem_map, List.getElem_zip]
  · rw [closed, finVals_cons_nan]
    rw [show ((a :: ps).zip ps).map (fun pr => EF.fin (pr.2 / pr.1 - 1))
          = (((a :: ps).zip ps).map (fun pr => pr.2 / pr.1 - 1)).map EF.fin by
        simp [List.map_map]]
    exact finVals_map_fin _
  · rw [closed]
    rw [show ((a :: ps).zip ps).map (fun pr => EF.fin (pr.2 / pr.1 - 1))
          = (((a :: ps).zip ps).map (fun pr => pr.2 / pr.1 - 1)).map EF.fin by
        simp [List.map_map]]
    exact meanE_cons_nan _
  · rw [closed]
    rw [show ((a :: ps).zip ps).map (fun pr => EF.fin (pr.2 / pr.1 - 1))
          = (((a :: ps).zip ps).map (fun pr => pr.2 / pr.1 - 1)).map EF.fin by
        simp [List.map_map]]
    exact varE_cons_nan _

/-- C1 witness: the prices 100, 102, 101 are positive; row 0 of the
return series is NaN and row 1 is 102/100 - 1. -/
theorem pct_change_row_values_holds :
    (∀ x ∈ [(100 : ℚ), 102, 101], 0 < x)
    ∧ (pctChangeVals [(100 : ℚ), 102, 101])[0]? = some EF.nan
    ∧ (pctChangeVals [(100 : ℚ), 102, 101])[1]? = some (EF.fin ((102 : ℚ) / 100 - 1)) := by
  refine ⟨by decide, (pct_change_row_values 100 [102, 101] (by decide)).1, ?_⟩
  have h2 := (pct_change_row_values 100 [102, 101] (by decide)).2.1 1 (by decide) (by decide)
  simpa using h2

/-- Length of the tail-return list equals the tail length. -/
theorem pctGo_length (prev : ℚ) (ps : List ℚ) :
    (pctChangeVals.pctGo prev ps).length = ps.length := by
  induction ps generalizing prev with
  | nil => rfl
  | cons q qs ih => simp [pctChangeVals.pctGo, ih]

/-- pct_change preserves the number of rows. -/
theorem pctChangeVals_length (l : List ℚ) :
    (pctChangeVals l).length = l.length := by
  cases l with
  | nil => rfl
  | cons a ps => simp [pctChangeVals, pctGo_length]

/-- C2 (amended): whenever the variance of the excess returns is zero,
the daily ratio is never a finite number: it is NaN when the mean is
zero — in particular when the asset's returns equal the benchmark's on
every date, so that all excess returns are zero — and a signed infinity
when the mean is nonzero (the float sqrt sends 0 to 0, so the division
is mean/0).  The zero-variance condition therefore surfaces as a
non-finite value, not as a silently coerced number, but the marker is
NaN only in the zero-mean case. -/
theorem zero_variance_ratio_not_finite (s : ℚ → ℚ) (ex : ETable) (m : ℚ)
    (hm : avg_excess_return ex = EF.fin m)
    (hv : varE (valsE ex) = EF.fin 0)
    (hs : s 0 = 0) :
    daily_sharpe_ratio s ex
      = (if 0 < m then EF.pinf else if m < 0 then EF.ninf else EF.nan)
    ∧ (∀ q : ℚ, daily_sharpe_ratio s ex ≠ EF.fin q) := by
  have hsd : daily_sharpe_ratio s ex
      = (if 0 < m then EF.pinf else if m < 0 then EF.ninf else EF.nan) := by
    unfold daily_sharpe_ratio sd_excess_return
    rw [hm, hv]
    have hsq : EF.sqrtE s (EF.fin 0) = EF.fin 0 := by simp [EF.sqrtE, hs]
    rw [hsq]
    simp [EF.div]
  refine ⟨hsd, fun q => ?_⟩
  rw [hsd]
  by_cases h1 : 0 < m
  · simp [h1]
  · by_cases h2 : m < 0 <;> simp [h1, h2]

/-- C2 counterexample: the asset grows 1 percent per day while the
benchmark is flat, so every excess return is 1/100: the standard
deviation of the excess returns is zero, yet the computed ratio is the
number +inf, not the NaN marker claimed. -/
theorem zero_variance_ratio_pinf :
    sd_excess_return (fun q => q)
        (excess_returns
          (stock_returns (dropna [(1, some 100), (2, some 101), (3, some (10201/100))]))
          (sp_returns (dropna [(1, some 50), (2, some 50), (3, some 50)])))
      = EF.fin 0
    ∧ daily_sharpe_ratio (fun q => q)
        (excess_returns
          (stock_returns (dropna [(1, some 100), (2, some 101), (3, some (10201/100))]))
          (sp_returns (dropna [(1, some 50), (2, some 50), (3, some 50)])))
      = EF.pinf
    ∧ EF.pinf ≠ EF.nan := by
  refine ⟨?_, ?_, by simp⟩ <;>
    norm_num [daily_sharpe_ratio, sd_excess_return, avg_excess_return, excess_returns,
      stock_returns, sp_returns, dropna, pctChangeT, pctChangeVals, pctChangeVals.pctGo,
      alignSub, unionKeys, sortKeys, insertKey, keysE, lookupE, valsE, meanE, varE, nonNan,
      EF.add, EF.sub, EF.mul, EF.div, EF.sq, EF.sqrtE, List.dedup, List.find?]

/-- C2 witness: asset prices 100, 110, 121 equal to the benchmark's, so
all excess returns are zero: mean 0, variance 0, and the ratio is NaN. -/
theorem zero_variance_ratio_not_finite_holds :
    avg_excess_return
        (excess_returns
          (stock_returns (dropna [(1, some 100), (2, some 110), (3, some 121)]))
          (sp_returns (dropna [(1, some 100), (2, some 110), (3, some 121)])))
      = EF.fin 0
    ∧ varE (valsE
        (excess_returns
          (stock_returns (dropna [(1, some 100), (2, some 110), (3, some 121)]))
          (sp_returns (dropna [(1, some 100), (2, some 110), (3, some 121)]))))
      = EF.fin 0
    ∧ (fun q : ℚ => q) 0 = 0
    ∧ daily_sharpe_ratio (fun q : ℚ => q)
        (excess_returns
          (stock_returns (dropna [(1, some 100), (2, some 110), (3, some 121)]))
          (sp_returns (dropna [(1, some 100), (2, some 110), (3, some 121)])))
      = EF.nan := by
  have hm : avg_excess_return
      (excess_returns
        (stock_returns (dropna [(1, some 100), (2, some 110), (3, some 121)]))
        (sp_returns (dropna [(1, some 100), (2, some 110), (3, some 121)])))
      = EF.fin 0 := by
    norm_num [avg_excess_return, excess_returns, stock_returns, sp_returns, dropna,
      pctChangeT, pctChangeVals, pctChangeVals.pctGo, alignSub, unionKeys, sortKeys,
      insertKey, keysE, lookupE, valsE, meanE, nonNan, EF.add, EF.sub, EF.div,
      List.dedup, List.find?]
  have hv : varE (valsE
      (excess_returns
        (stock_returns (dropna [(1, some 100), (2, some 110), (3, some 121)]))
        (sp_returns (dropna [(1, some 100), (2, some 110), (3, some 121)]))))
      = EF.fin 0 := by
    norm_num [excess_returns, stock_returns, sp_returns, dropna,
      pctChangeT, pctChangeVals, pctChangeVals.pctGo, alignSub, unionKeys, sortKeys,
      insertKey, keysE, lookupE, valsE, meanE, varE, nonNan, EF.add, EF.sub, EF.div,
      EF.sq, EF.mul, List.dedup, List.find?]
  have h := zero_variance_ratio_not_finite (fun q : ℚ => q) _ 0 hm hv rfl
  refine ⟨hm, hv, rfl, ?_⟩
  rw [h.1]
  simp

/-- C3: the standard deviation entering the Sharpe ratio is the sample
standard deviation: over N >= 2 valid excess observations the quantity
handed to the square root is the sum of squared deviations from the
mean divided by N - 1, and — whenever that sum is nonzero — this differs
from dividing by N. -/
theorem std_uses_sample_convention (s : ℚ → ℚ) (ex : ETable)
    (ht : tameL (valsE ex)) (h2 : 2 ≤ (finVals (valsE ex)).length) :
    sd_excess_return s ex
      = EF.sqrtE s (EF.fin
          (((finVals (valsE ex)).map
              (fun x => (x - meanQ (finVals (valsE ex))) ^ 2)).sum
            / (((finVals (valsE ex)).length : ℚ) - 1)))
    ∧ (((finVals (valsE ex)).map
          (fun x => (x - meanQ (finVals (valsE ex))) ^ 2)).sum ≠ 0 →
        ((finVals (valsE ex)).map
              (fun x => (x - meanQ (finVals (valsE ex))) ^ 2)).sum
            / (((finVals (valsE ex)).length : ℚ) - 1)
          ≠ ((finVals (valsE ex)).map
              (fun x => (x - meanQ (finVals (valsE ex))) ^ 2)).sum
            / ((finVals (valsE ex)).length : ℚ)) := by
  constructor
  · unfold sd_excess_return
    rw [varE_tame _ ht]
    have hn : ¬ (finVals (valsE ex)).length ≤ 1 := by omega
    simp only [hn, if_false, varQ]
  · intro hS heq
    have hn1 : ((finVals (valsE ex)).length : ℚ) - 1 ≠ 0 := by
      have : (2 : ℚ) ≤ ((finVals (valsE ex)).length : ℚ) := by exact_mod_cast h2
      linarith
    have hn : ((finVals (valsE ex)).length : ℚ) ≠ 0 := by
      have : (2 : ℚ) ≤ ((finVals (valsE ex)).length : ℚ) := by exact_mod_cast h2
      linarith
    rw [div_eq_div_iff hn1 hn] at heq
    have := mul_left_cancel₀ hS heq
    have h2q : (2 : ℚ) ≤ ((finVals (valsE ex)).length : ℚ) := by exact_mod_cast h2
    linarith

/-- C3 witness: the excess returns of the spec's concrete scenario
(prices 100, 102, 101 against 100, 101, 101) are tame with 2 valid
observations, and the standard deviation is the square root of
10201/52020000, the sum of squared deviations divided by N - 1 = 1. -/
theorem std_uses_sample_convention_holds :
    tameL (valsE
      (excess_returns
        (stock_returns (dropna [(1, some 100), (2, some 102), (3, some 101)]))
        (sp_returns (dropna [(1, some 100), (2, some 101), (3, some 101)]))))
    ∧ 2 ≤ (finVals (valsE
        (excess_returns
          (stock_returns (dropna [(1, some 100), (2, some 102), (3, some 101)]))
          (sp_returns (dropna [(1, some 100), (2, some 101), (3, some 101)]))))).length
    ∧ sd_excess_return (fun q : ℚ => q)
        (excess_returns
          (stock_returns (dropna [(1, some 100), (2, some 102), (3, some 101)]))
          (sp_returns (dropna [(1, some 100), (2, some 101), (3, some 101)])))
      = EF.fin (10201/52020000) := by
  have hvals : valsE
      (excess_returns
        (stock_returns (dropna [(1, some 100), (2, some 102), (3, some 101)]))
        (sp_returns (dropna [(1, some 100), (2, some 101), (3, some 101)])))
      = [EF.nan, EF.fin (1/100), EF.fin (-(1/102))] := by
    norm_num [excess_returns, stock_returns, sp_returns, dropna, pctChangeT,
      pctChangeVals, pctChangeVals.pctGo, alignSub, unionKeys, sortKeys, insertKey,
      keysE, lookupE, valsE, EF.sub, EF.div, List.dedup, List.find?]
  have ht : tameL (valsE
      (excess_returns
        (stock_returns (dropna [(1, some 100), (2, some 102), (3, some 101)]))
        (sp_returns (dropna [(1, some 100), (2, some 101), (3, some 101)])))) := by
    rw [hvals]
    intro x hx
    fin_cases hx <;> rfl
  have h2 : 2 ≤ (finVals (valsE
      (excess_returns
        (stock_returns (dropna [(1, some 100), (2, some 102), (3, some 101)]))
        (sp_returns (dropna [(1, some 100), (2, some 101), (3, some 101)]))))).length := by
    rw [hvals]
    rfl
  refine ⟨ht, h2, ?_⟩
  rw [(std_uses_sample_convention (fun q : ℚ => q) _ ht h2).1, hvals]
  norm_num [finVals, finPart, meanQ, EF.sqrtE, List.filterMap_cons, List.filterMap_nil]

/-- C4: annualization is a pure scalar multiply: for an asset whose
daily ratio is the finite nonzero number d, the annualized ratio is
d times the annualization factor, and dividing the annualized ratio by
the daily ratio recovers the factor exactly. -/
theorem annualization_is_scalar_multiple (s : ℚ → ℚ) (factor : ℚ) (ex : ETable) (d : ℚ)
    (hd : daily_sharpe_ratio s ex = EF.fin d) (hdz : d ≠ 0) :
    annual_sharpe_ratio s factor ex = EF.fin (d * factor)
    ∧ EF.div (annual_sharpe_ratio s factor ex) (daily_sharpe_ratio s ex)
        = EF.fin factor := by
  have h1 : annual_sharpe_ratio s factor ex = EF.fin (d * factor) := by
    rw [annual_sharpe_ratio, hd]
    rfl
  refine ⟨h1, ?_⟩
  rw [h1, hd]
  simp only [EF.div, hdz, if_false]
  rw [mul_div_cancel_left₀ factor hdz]

/-- C4 witness: on the spec's concrete scenario the daily ratio is the
finite nonzero 5100/10201, and with factor 4 the annualized ratio
divided by the daily ratio is exactly 4. -/
theorem annualization_is_scalar_multiple_holds :
    daily_sharpe_ratio (fun q : ℚ => q)
        (excess_returns
          (stock_returns (dropna [(1, some 100), (2, some 102), (3, some 101)]))
          (sp_returns (dropna [(1, some 100), (2, some 101), (3, some 101)])))
      = EF.fin (5100/10201)
    ∧ (5100/10201 : ℚ) ≠ 0
    ∧ EF.div
        (annual_sharpe_ratio (fun q : ℚ => q) 4
          (excess_returns
            (stock_returns (dropna [(1, some 100), (2, some 102), (3, some 101)]))
            (sp_returns (dropna [(1, some 100), (2, some 101), (3, some 101)]))))
        (daily_sharpe_ratio (fun q : ℚ => q)
          (excess_returns
            (stock_returns (dropna [(1, some 100), (2, some 102), (3, some 101)]))
            (sp_returns (dropna [(1, some 100), (2, some 101), (3, some 101)]))))
      = EF.fin 4 := by
  have hd : daily_sharpe_ratio (fun q : ℚ => q)
      (excess_returns
        (stock_returns (dropna [(1, some 100), (2, some 102), (3, some 101)]))
        (sp_returns (dropna [(1, some 100), (2, some 101), (3, some 101)])))
      = EF.fin (5100/10201) := by
    norm_num [daily_sharpe_ratio, sd_excess_return, avg_excess_return, excess_returns,
      stock_returns, sp_returns, dropna, pctChangeT, pctChangeVals, pctChangeVals.pctGo,
      alignSub, unionKeys, sortKeys, insertKey, keysE, lookupE, valsE, meanE, varE, nonNan,
      EF.add, EF.sub, EF.mul, EF.div, EF.sq, EF.sqrtE, List.dedup, List.find?]
  refine ⟨hd, by norm_num, ?_⟩
  have h := annualization_is_scalar_multiple (fun q : ℚ => q) 4 _ (5100/10201) hd (by norm_num)
  exact h.2

/-- C5 (amended): whenever the excess-return series carries fewer than
2 valid (finite) observations — in particular for a price series of
length 1, whose return series is a single NaN — the daily ratio is NaN:
the mean is NaN (no observation) or the lone observation, the ddof = 1
standard deviation is NaN, and the division propagates NaN.  The marker
is the same NaN used for a zero-variance ratio, not a distinct
insufficient-data value. -/
theorem insufficient_data_gives_nan (s : ℚ → ℚ) (ex : ETable)
    (ht : tameL (valsE ex)) (h2 : (finVals (valsE ex)).length < 2) :
    daily_sharpe_ratio s ex = EF.nan := by
  unfold daily_sharpe_ratio sd_excess_return avg_excess_return
  rw [varE_tame _ ht, meanE_tame _ ht]
  have h1 : (finVals (valsE ex)).length ≤ 1 := by omega
  by_cases h0 : (finVals (valsE ex)).length = 0
  · simp [h0, h1, EF.sqrtE, EF.div]
  · simp [h0, h1, EF.sqrtE, EF.div]

/-- C5 counterexample: for the one-row price table the derived return
series is the single-row NaN series, not the empty series the claim
states; the ratio degrades to the generic NaN, not a distinct
insufficient-data marker. -/
theorem single_row_return_series_not_empty :
    stock_returns (dropna [(1, some (100 : ℚ))]) = [(1, EF.nan)]
    ∧ [((1 : ℕ), EF.nan)] ≠ ([] : ETable)
    ∧ asset_daily (fun q : ℚ => q) [(1, some (100 : ℚ))] [(1, some (50 : ℚ))] = EF.nan := by
  refine ⟨by norm_num [stock_returns, dropna, pctChangeT, pctChangeVals,
    List.filterMap_cons, List.filterMap_nil], by simp, ?_⟩
  norm_num [asset_daily, daily_sharpe_ratio, sd_excess_return, avg_excess_return,
    excess_returns, stock_returns, sp_returns, dropna, pctChangeT, pctChangeVals,
    pctChangeVals.pctGo, alignSub, unionKeys, sortKeys, insertKey, keysE, lookupE,
    valsE, meanE, varE, nonNan, EF.add, EF.sub, EF.mul, EF.div, EF.sq, EF.sqrtE,
    List.dedup, List.filterMap_cons, List.filterMap_nil]

/-- C5 witness: the one-row pipeline (stock price 100 on the single
date, benchmark 50) has a tame excess series with 0 valid observations,
and the theorem yields the NaN daily ratio. -/
theorem insufficient_data_gives_nan_holds :
    tameL (valsE
      (excess_returns (stock_returns (dropna [(1, some (100 : ℚ))]))
        (sp_returns (dropna [(1, some (50 : ℚ))]))))
    ∧ (finVals (valsE
        (excess_returns (stock_returns (dropna [(1, some (100 : ℚ))]))
          (sp_returns (dropna [(1, some (50 : ℚ))]))))).length < 2
    ∧ daily_sharpe_ratio (fun q : ℚ => q)
        (excess_returns (stock_returns (dropna [(1, some (100 : ℚ))]))
          (sp_returns (dropna [(1, some (50 : ℚ))])))
      = EF.nan := by
  have hvals : valsE
      (excess_returns (stock_returns (dropna [(1, some (100 : ℚ))]))
        (sp_returns (dropna [(1, some (50 : ℚ))])))
      = [EF.nan] := by
    norm_num [excess_returns, stock_returns, sp_returns, dropna, pctChangeT,
      pctChangeVals, alignSub, unionKeys, sortKeys, insertKey, keysE, lookupE,
      valsE, EF.sub, List.dedup, List.filterMap_cons, List.filterMap_nil]
  have ht : tameL (valsE
      (excess_returns (stock_returns (dropna [(1, some (100 : ℚ))]))
        (sp_returns (dropna [(1, some (50 : ℚ))])))) := by
    rw [hvals]
    intro x hx
    fin_cases hx
    rfl
  have h2 : (finVals (valsE
      (excess_returns (stock_returns (dropna [(1, some (100 : ℚ))]))
        (sp_returns (dropna [(1, some (50 : ℚ))]))))).length < 2 := by
    rw [hvals]
    simp [finVals, finPart]
  exact ⟨ht, h2, insufficient_data_gives_nan (fun q : ℚ => q) _ ht h2⟩

/-- C6 (amended): the pipeline performs no validation of prices: dropna
removes only missing cells, so rows with zero or negative prices are
kept in full, and pct_change still produces a value for every row —
no invalid-input error exists in the computation. -/
theorem no_price_validation (t : Table) :
    dropna (t.map (fun r => (r.1, some r.2))) = t
    ∧ (stock_returns t).length = t.length := by
  constructor
  · induction t with
    | nil => rfl
    | cons r t ih =>
        simp only [List.map_cons, dropna, List.filterMap_cons, Option.map_some] at ih ⊢
        simp [ih]
  · simp [stock_returns, pctChangeT, List.length_zip, pctChangeVals_length]

/-- C6 counterexample: a zero price and negative prices pass dropna
untouched and flow into the return arithmetic: the row after a zero
price gets the return +inf, and a pair of negative prices yields the
ordinary numeric return -1/2 — no invalid-input error is reported for
either table. -/
theorem nonpositive_price_no_error :
    dropna [(1, some (0 : ℚ)), (2, some 5)] = [(1, (0 : ℚ)), (2, 5)]
    ∧ stock_returns [(1, (0 : ℚ)), (2, 5)] = [(1, EF.nan), (2, EF.pinf)]
    ∧ dropna [(1, some (-4 : ℚ)), (2, some (-2))] = [(1, (-4 : ℚ)), (2, -2)]
    ∧ stock_returns [(1, (-4 : ℚ)), (2, -2)] = [(1, EF.nan), (2, EF.fin (-(1/2)))] := by
  refine ⟨by norm_num [dropna, List.filterMap_cons, List.filterMap_nil], ?_,
    by norm_num [dropna, List.filterMap_cons, List.filterMap_nil], ?_⟩ <;>
    norm_num [stock_returns, pctChangeT, pctChangeVals, pctChangeVals.pctGo,
      EF.div, EF.sub]

/-- Scaling all prices by a nonzero constant leaves the tail returns
unchanged (each return depends only on the ratio of consecutive
prices). -/
theorem pctGo_scale (c : ℚ) (hc : c ≠ 0) (prev : ℚ) (ps : List ℚ)
    (hprev : prev ≠ 0) (hps : ∀ x ∈ ps, x ≠ 0) :
    pctChangeVals.pctGo (c * prev) (ps.map (fun q => c * q))
      = pctChangeVals.pctGo prev ps := by
  induction ps generalizing prev with
  | nil => rfl
  | cons q qs ih =>
      have hq : q ≠ 0 := hps q (List.mem_cons_self q qs)
      have hqs : ∀ x ∈ qs, x ≠ 0 := fun y hy => hps y (List.mem_cons_of_mem q hy)
      simp only [List.map_cons, pctChangeVals.pctGo]
      rw [ih q hq hqs]
      have hcp : c * prev ≠ 0 := mul_ne_zero hc hprev
      simp only [EF.div, hcp, hprev, if_false, mul_div_mul_left q prev hc]

/-- Scaling all prices by a nonzero constant leaves pct_change
unchanged. -/
theorem pctChangeVals_scale (c : ℚ) (hc : c ≠ 0) (l : List ℚ)
    (h : ∀ x ∈ l, x ≠ 0) :
    pctChangeVals (l.map (fun q => c * q)) = pctChangeVals l := by
  cases l with
  | nil => rfl
  | cons a ps =>
      have ha : a ≠ 0 := h a (List.mem_cons_self a ps)
      have hps : ∀ x ∈ ps, x ≠ 0 := fun y hy => h y (List.mem_cons_of_mem a hy)
      simp only [List.map_cons, pctChangeVals]
      rw [pctGo_scale c hc a ps ha hps]

/-- C7: return calculation is scale-invariant: multiplying every price
of a strictly positive price column by a positive constant c yields
exactly the same return series, and hence the same daily Sharpe ratio
against any benchmark return series. -/
theorem returns_scale_invariant (s : ℚ → ℚ) (c : ℚ) (t : Table) (B : ETable)
    (hc : 0 < c) (hpos : ∀ r ∈ t, 0 < r.2) :
    stock_returns (t.map (fun r => (r.1, c * r.2))) = stock_returns t
    ∧ daily_sharpe_ratio s
        (excess_returns (stock_returns (t.map (fun r => (r.1, c * r.2)))) B)
        = daily_sharpe_ratio s (excess_returns (stock_returns t) B) := by
  have h1 : stock_returns (t.map (fun r => (r.1, c * r.2))) = stock_returns t := by
    unfold stock_returns pctChangeT
    have hfst : (t.map (fun r => (r.1, c * r.2))).map Prod.fst = t.map Prod.fst := by
      simp [List.map_map, Function.comp]
    have hsnd : (t.map (fun r => (r.1, c * r.2))).map Prod.snd
        = (t.map Prod.snd).map (fun q => c * q) := by
      simp [List.map_map, Function.comp]
    rw [hfst, hsnd, pctChangeVals_scale c hc.ne' (t.map Prod.snd)
      (by intro x hx
          obtain ⟨r, hr, rfl⟩ := List.mem_map.mp hx
          exact (hpos r hr).ne')]
  exact ⟨h1, by rw [h1]⟩

/-- C7 witness: tripling the prices 100, 102, 101 leaves the return
series unchanged. -/
theorem returns_scale_invariant_holds :
    (0 : ℚ) < 3
    ∧ (∀ r ∈ [((1 : ℕ), (100 : ℚ)), (2, 102), (3, 101)], 0 < r.2)
    ∧ stock_returns ([((1 : ℕ), (100 : ℚ)), (2, 102), (3, 101)].map
        (fun r => (r.1, 3 * r.2)))
        = stock_returns [((1 : ℕ), (100 : ℚ)), (2, 102), (3, 101)] := by
  have hpos : ∀ r ∈ [((1 : ℕ), (100 : ℚ)), (2, 102), (3, 101)], 0 < r.2 := by
    intro r hr
    fin_cases hr <;> norm_num
  exact ⟨by norm_num, hpos,
    (returns_scale_invariant (fun q : ℚ => q) 3 _ [] (by norm_num) hpos).1⟩

/-- C9 (amended): the script never sorts rows by date: pct_change walks
the rows in the order given, so scrambling the input rows is not
harmless — the daily Sharpe ratio is not invariant under permutation of
the input rows. -/
theorem returns_not_permutation_invariant :
    ¬ (∀ (t u : Table) (B : ETable) (s : ℚ → ℚ), t.Perm u →
        daily_sharpe_ratio s (excess_returns (stock_returns t) B)
          = daily_sharpe_ratio s (excess_returns (stock_returns u) B)) := by
  intro hinv
  have hperm : ([((2 : ℕ), (2 : ℚ)), (1, 1), (3, 4)]).Perm
      [((1 : ℕ), (1 : ℚ)), (2, 2), (3, 4)] := List.Perm.swap _ _ _
  have h := hinv _ _ (sp_returns [((1 : ℕ), (10 : ℚ)), (2, 10), (3, 10)])
    (fun q : ℚ => q) hperm
  have h1 : daily_sharpe_ratio (fun q : ℚ => q)
      (excess_returns (stock_returns [((2 : ℕ), (2 : ℚ)), (1, 1), (3, 4)])
        (sp_returns [((1 : ℕ), (10 : ℚ)), (2, 10), (3, 10)])) = EF.nan := by
    norm_num [daily_sharpe_ratio, sd_excess_return, avg_excess_return, excess_returns,
      stock_returns, sp_returns, pctChangeT, pctChangeVals, pctChangeVals.pctGo,
      alignSub, unionKeys, sortKeys, insertKey, keysE, lookupE, valsE, meanE, varE,
      nonNan, EF.add, EF.sub, EF.mul, EF.div, EF.sq, EF.sqrtE, List.dedup]
  have h2 : daily_sharpe_ratio (fun q : ℚ => q)
      (excess_returns (stock_returns [((1 : ℕ), (1 : ℚ)), (2, 2), (3, 4)])
        (sp_returns [((1 : ℕ), (10 : ℚ)), (2, 10), (3, 10)])) = EF.pinf := by
    norm_num [daily_sharpe_ratio, sd_excess_return, avg_excess_return, excess_returns,
      stock_returns, sp_returns, pctChangeT, pctChangeVals, pctChangeVals.pctGo,
      alignSub, unionKeys, sortKeys, insertKey, keysE, lookupE, valsE, meanE, varE,
      nonNan, EF.add, EF.sub, EF.mul, EF.div, EF.sq, EF.sqrtE, List.dedup]
  rw [h1, h2] at h
  exact EF.noConfusion h

/-- C9 counterexample: scrambling the rows of the stock table (a
permutation of the same rows) changes the daily ratio from +inf to NaN,
because returns are computed over consecutive rows in the order given —
no sort by date happens. -/
theorem scrambled_rows_change_ratio :
    ([((2 : ℕ), (2 : ℚ)), (1, 1), (3, 4)]).Perm [((1 : ℕ), (1 : ℚ)), (2, 2), (3, 4)]
    ∧ daily_sharpe_ratio (fun q : ℚ => q)
        (excess_returns (stock_returns [((1 : ℕ), (1 : ℚ)), (2, 2), (3, 4)])
          (sp_returns [((1 : ℕ), (10 : ℚ)), (2, 10), (3, 10)])) = EF.pinf
    ∧ daily_sharpe_ratio (fun q : ℚ => q)
        (excess_returns (stock_returns [((2 : ℕ), (2 : ℚ)), (1, 1), (3, 4)])
          (sp_returns [((1 : ℕ), (10 : ℚ)), (2, 10), (3, 10)])) = EF.nan
    ∧ EF.pinf ≠ EF.nan := by
  refine ⟨List.Perm.swap _ _ _, ?_, ?_, by simp⟩ <;>
    norm_num [daily_sharpe_ratio, sd_excess_return, avg_excess_return, excess_returns,
      stock_returns, sp_returns, pctChangeT, pctChangeVals, pctChangeVals.pctGo,
      alignSub, unionKeys, sortKeys, insertKey, keysE, lookupE, valsE, meanE, varE,
      nonNan, EF.add, EF.sub, EF.mul, EF.div, EF.sq, EF.sqrtE, List.dedup]

/-- Lookup of an absent date gives NaN. -/
theorem lookupE_not_mem (t : ETable) (d : ℕ) (h : d ∉ keysE t) :
    lookupE t d = EF.nan := by
  induction t with
  | nil => rfl
  | cons r rs ih =>
      simp only [keysE, List.map_cons, List.mem_cons, not_or] at h
      simp only [lookupE]
      rw [if_neg (fun he => h.1 he.symm)]
      exact ih (by simpa [keysE] using h.2)

/-- With no duplicate dates, lookup of a row's date gives its value. -/
theorem lookupE_self (t : ETable) (hk : (keysE t).Nodup) :
    ∀ r ∈ t, lookupE t r.1 = r.2 := by
  induction t with
  | nil => intro r hr; cases hr
  | cons x xs ih =>
      intro r hr
      simp only [keysE, List.map_cons, List.nodup_cons] at hk
      rcases List.mem_cons.mp hr with h | h
      · subst h
        simp [lookupE]
      · have hne : x.1 ≠ r.1 := by
          intro he
          exact hk.1 (he ▸ List.mem_map_of_mem Prod.fst h)
        simp only [lookupE, if_neg hne]
        exact ih hk.2 r h

/-- A subtraction is finite exactly when both arguments are finite. -/
theorem finPart_sub (x y : EF) :
    finPart (EF.sub x y)
      = (match x, y with
        | EF.fin a, EF.fin b => some (a - b)
        | _, _ => none) := by
  cases x <;> cases y <;> rfl

theorem mem_insertKey (x d : ℕ) (l : List ℕ) :
    x ∈ insertKey d l ↔ x = d ∨ x ∈ l := by
  induction l with
  | nil => simp [insertKey]
  | cons a l ih =>
      by_cases h : d ≤ a
      · simp [insertKey, h]
      · simp [insertKey, h, ih]
        tauto

theorem mem_sortKeys (x : ℕ) (l : List ℕ) : x ∈ sortKeys l ↔ x ∈ l := by
  induction l with
  | nil => simp [sortKeys]
  | cons a l ih => simp [sortKeys, mem_insertKey, ih]

theorem mem_unionKeys (x : ℕ) (a b : ETable) :
    x ∈ unionKeys a b ↔ x ∈ keysE a ∨ x ∈ keysE b := by
  simp [unionKeys, List.mem_dedup, mem_sortKeys, List.mem_append]

theorem unionKeys_nodup (a b : ETable) : (unionKeys a b).Nodup :=
  List.nodup_dedup _

/-- filterMap only looks at the elements where it is defined. -/
theorem filterMap_restrict (g : ℕ → Option ℚ) (l : List ℕ) :
    l.filterMap g = (l.filter (fun d => (g d).isSome)).filterMap g := by
  induction l with
  | nil => rfl
  | cons a l ih =>
      cases hg : g a with
      | none => simp [List.filterMap_cons, List.filter_cons, hg, ih]
      | some q => simp [List.filterMap_cons, List.filter_cons, hg, ih]

/-- Two duplicate-free index lists that agree wherever g is defined give
permuted filterMaps. -/
theorem filterMap_perm_of_nodup (g : ℕ → Option ℚ) (l1 l2 : List ℕ)
    (h1 : l1.Nodup) (h2 : l2.Nodup)
    (hg : ∀ d, (g d).isSome → (d ∈ l1 ↔ d ∈ l2)) :
    (l1.filterMap g).Perm (l2.filterMap g) := by
  rw [filterMap_restrict g l1, filterMap_restrict g l2]
  refine (List.perm_of_nodup_nodup_toFinset_eq (h1.filter _) (h2.filter _) ?_).filterMap g
  ext d
  simp only [List.mem_toFinset, List.mem_filter]
  constructor
  · rintro ⟨hd, hs⟩
    exact ⟨(hg d (by simpa using hs)).mp hd, hs⟩
  · rintro ⟨hd, hs⟩
    exact ⟨(hg d (by simpa using hs)).mpr hd, hs⟩

/-- Lookups in a tame series are tame. -/
theorem lookupE_tame (t : ETable) (ht : tameL (valsE t)) (d : ℕ) :
    noInf (lookupE t d) = true := by
  induction t with
  | nil => rfl
  | cons r rs ih =>
      simp only [lookupE]
      by_cases h : r.1 = d
      · rw [if_pos h]
        exact ht r.2 (by simp [valsE])
      · rw [if_neg h]
        exact ih (fun x hx => ht x (by simp [valsE] at hx ⊢; tauto))

theorem sub_noInf (x y : EF) (hx : noInf x = true) (hy : noInf y = true) :
    noInf (EF.sub x y) = true := by
  cases x <;> cases y <;> first | rfl | simp [noInf] at hx hy

/-- The excess-return series of tame return series is tame. -/
theorem excess_tame (A B : ETable) (htA : tameL (valsE A)) (htB : tameL (valsE B)) :
    tameL (valsE (excess_returns A B)) := by
  intro x hx
  simp only [excess_returns, alignSub, valsE, List.map_map, List.mem_map,
    Function.comp] at hx
  obtain ⟨d, _, rfl⟩ := hx
  exact sub_noInf _ _ (lookupE_tame A htA d) (lookupE_tame B htB d)

/-- The valid excess-return observations are a permutation of the inner
join on dates of the two return series. -/
theorem excess_finVals_perm (A B : ETable) (hA : (keysE A).Nodup) :
    (finVals (valsE (excess_returns A B))).Perm (innerDiffQ A B) := by
  have hval : valsE (excess_returns A B)
      = (unionKeys A B).map (fun d => EF.sub (lookupE A d) (lookupE B d)) := by
    simp [excess_returns, alignSub, valsE, List.map_map, Function.comp]
  have hfv : finVals (valsE (excess_returns A B))
      = (unionKeys A B).filterMap
          (fun d => finPart (EF.sub (lookupE A d) (lookupE B d))) := by
    rw [hval, finVals, List.filterMap_map]
    rfl
  have hid : innerDiffQ A B
      = (keysE A).filterMap
          (fun d => finPart (EF.sub (lookupE A d) (lookupE B d))) := by
    rw [innerDiffQ, keysE, List.filterMap_map]
    apply List.filterMap_congr
    intro r hr
    rw [Function.comp_apply, finPart_sub, lookupE_self A hA r hr]
  rw [hfv, hid]
  apply filterMap_perm_of_nodup _ _ _ (unionKeys_nodup A B) hA
  intro d hd
  have hmm : d ∈ keysE A := by
    by_contra hno
    rw [lookupE_not_mem A d hno] at hd
    simp [EF.sub, finPart] at hd
  exact ⟨fun _ => hmm, fun _ => (mem_unionKeys d A B).mpr (Or.inl hmm)⟩

theorem meanQ_perm (xs ys : List ℚ) (h : xs.Perm ys) : meanQ xs = meanQ ys := by
  unfold meanQ
  rw [h.sum_eq, h.length_eq]

theorem varQ_perm (xs ys : List ℚ) (h : xs.Perm ys) : varQ xs = varQ ys := by
  unfold varQ
  rw [meanQ_perm xs ys h, h.length_eq, (h.map (fun x => (x - meanQ ys) ^ 2)).sum_eq]

/-- C8 (amended): rows with a missing cell are dropped at load (dropna
keeps exactly the present rows); alignment happens at the excess-return
subtraction, where a date absent from either return series yields NaN,
so the mean, standard deviation and ratio are computed exactly over the
inner join on dates of the two return series.  (The join is of the
return series, not of the price tables: a date present only in the
stock table still influences the stock return computed at the next date
of that table.) -/
theorem stats_use_inner_join (s : ℚ → ℚ) (rawS : RawTable) (A B : ETable)
    (hA : (keysE A).Nodup) (htA : tameL (valsE A)) (htB : tameL (valsE B)) :
    (∀ d q, (d, q) ∈ dropna rawS ↔ (d, some q) ∈ rawS)
    ∧ (finVals (valsE (excess_returns A B))).Perm (innerDiffQ A B)
    ∧ avg_excess_return (excess_returns A B) = meanE ((innerDiffQ A B).map EF.fin)
    ∧ sd_excess_return s (excess_returns A B)
        = EF.sqrtE s (varE ((innerDiffQ A B).map EF.fin))
    ∧ daily_sharpe_ratio s (excess_returns A B)
        = EF.div (meanE ((innerDiffQ A B).map EF.fin))
            (EF.sqrtE s (varE ((innerDiffQ A B).map EF.fin))) := by
  have hperm := excess_finVals_perm A B hA
  have htE : tameL (valsE (excess_returns A B)) := excess_tame A B htA htB
  have htI : tameL ((innerDiffQ A B).map EF.fin) := by
    intro x hx
    simp only [List.mem_map] at hx
    obtain ⟨q, _, rfl⟩ := hx
    rfl
  have hfvI : finVals ((innerDiffQ A B).map EF.fin) = innerDiffQ A B :=
    finVals_map_fin _
  have hmean : avg_excess_return (excess_returns A B)
      = meanE ((innerDiffQ A B).map EF.fin) := by
    unfold avg_excess_return
    rw [meanE_tame _ htE, meanE_tame _ htI, hfvI, hperm.length_eq,
      meanQ_perm _ _ hperm]
  have hvar : varE (valsE (excess_returns A B))
      = varE ((innerDiffQ A B).map EF.fin) := by
    rw [varE_tame _ htE, varE_tame _ htI, hfvI, hperm.length_eq,
      varQ_perm _ _ hperm]
  have hdrop : ∀ d q, (d, q) ∈ dropna rawS ↔ (d, some q) ∈ rawS := by
    intro d q
    simp only [dropna, List.mem_filterMap]
    constructor
    · rintro ⟨⟨r1, r2⟩, hr, hf⟩
      cases r2 with
      | none => simp at hf
      | some v =>
          simp only [Option.map] at hf
          rw [Option.some.injEq, Prod.mk.injEq] at hf
          obtain ⟨h1, h2⟩ := hf
          subst h1
          subst h2
          exact hr
    · intro h
      exact ⟨(d, some q), h, rfl⟩
  refine ⟨hdrop, hperm, hmean, ?_, ?_⟩
  · unfold sd_excess_return
    rw [hvar]
  · unfold daily_sharpe_ratio sd_excess_return
    rw [hmean, hvar]

/-- C8 witness: asset return series over dates 1,2,3 (value at 2 is 1,
at 3 is -1/2, NaN first row) against a benchmark return series over
dates 1,3: the valid excess observations are exactly the inner join
(date 3 only), and the mean over the excess series equals the mean over
the inner-joined differences. -/
theorem stats_use_inner_join_holds :
    (keysE [((1 : ℕ), EF.nan), (2, EF.fin 1), (3, EF.fin (-(1/2)))]).Nodup
    ∧ tameL (valsE [((1 : ℕ), EF.nan), (2, EF.fin 1), (3, EF.fin (-(1/2)))])
    ∧ tameL (valsE [((1 : ℕ), EF.nan), (3, EF.fin 0)])
    ∧ (finVals (valsE (excess_returns
        [((1 : ℕ), EF.nan), (2, EF.fin 1), (3, EF.fin (-(1/2)))]
        [((1 : ℕ), EF.nan), (3, EF.fin 0)]))).Perm
      (innerDiffQ [((1 : ℕ), EF.nan), (2, EF.fin 1), (3, EF.fin (-(1/2)))]
        [((1 : ℕ), EF.nan), (3, EF.fin 0)])
    ∧ avg_excess_return (excess_returns
        [((1 : ℕ), EF.nan), (2, EF.fin 1), (3, EF.fin (-(1/2)))]
        [((1 : ℕ), EF.nan), (3, EF.fin 0)])
      = meanE ((innerDiffQ [((1 : ℕ), EF.nan), (2, EF.fin 1), (3, EF.fin (-(1/2)))]
          [((1 : ℕ), EF.nan), (3, EF.fin 0)]).map EF.fin) := by
  have hA : (keysE [((1 : ℕ), EF.nan), (2, EF.fin 1), (3, EF.fin (-(1/2)))]).Nodup := by
    decide
  have htA : tameL (valsE [((1 : ℕ), EF.nan), (2, EF.fin 1), (3, EF.fin (-(1/2)))]) := by
    intro x hx
    fin_cases hx <;> rfl
  have htB : tameL (valsE [((1 : ℕ), EF.nan), (3, EF.fin 0)]) := by
    intro x hx
    fin_cases hx <;> rfl
  have h := stats_use_inner_join (fun q : ℚ => q) [] _ _ hA htA htB
  exact ⟨hA, htA, htB, h.2.1, h.2.2.1⟩

/-- C8 counterexample: date 2 is present only in the stock table; under
the code's pct_change-then-align order its price still contributes: the
mean excess return is -1/2 with the date-2 row present and 0 with it
removed, so a date present in one table but not the other does
influence the statistics, unlike an inner join performed before the
return arithmetic. -/
theorem misaligned_date_contributes :
    avg_excess_return (excess_returns
        (stock_returns (dropna [(1, some (100 : ℚ)), (2, some 200), (3, some 100)]))
        (sp_returns (dropna [(1, some (10 : ℚ)), (3, some 10)])))
      = EF.fin (-(1/2))
    ∧ avg_excess_return (excess_returns
        (stock_returns (dropna [(1, some (100 : ℚ)), (3, some 100)]))
        (sp_returns (dropna [(1, some (10 : ℚ)), (3, some 10)])))
      = EF.fin 0
    ∧ EF.fin (-(1/2)) ≠ EF.fin 0 := by
  refine ⟨?_, ?_, by norm_num⟩ <;>
    norm_num [avg_excess_return, excess_returns, stock_returns, sp_returns, dropna,
      pctChangeT, pctChangeVals, pctChangeVals.pctGo, alignSub, unionKeys, sortKeys,
      insertKey, keysE, lookupE, valsE, meanE, nonNan, EF.add, EF.sub, EF.div,
      List.dedup, List.filterMap_cons, List.filterMap_nil]

/-- Projecting the second component out of a zipped triple list. -/
theorem map_snd2_zip (ks : List ℕ) (l1 l2 : List EF) (h : l1.length = l2.length) :
    (ks.zip (l1.zip l2)).map (fun r => (r.1, r.2.2)) = ks.zip l2 := by
  induction ks generalizing l1 l2 with
  | nil => rfl
  | cons k ks ih =>
      cases l1 with
      | nil =>
          cases l2 with
          | nil => rfl
          | cons y ys => exact absurd h (by simp)
      | cons x xs =>
          cases l2 with
          | nil => exact absurd h (by simp)
          | cons y ys =>
              simp only [List.zip_cons_cons, List.map_cons]
              rw [ih xs ys (by simpa using h)]

/-- Column-wise pct_change: the second column of the frame result is the
single-asset pct_change of the second column. -/
theorem ecol2_pctChangeF (f : Frame2) :
    ecol2 (pctChangeF f) = pctChangeT (col2 f) := by
  unfold ecol2 pctChangeF pctChangeT col2
  rw [map_snd2_zip _ _ _ (by simp [pctChangeVals_length])]
  congr 1
  · simp [List.map_map, Function.comp]
  · congr 1
    simp [List.map_map, Function.comp]

/-- Frame lookup projects to single-series lookup. -/
theorem lookupF_snd (g : EFrame2) (d : ℕ) :
    (lookupF g d).2 = lookupE (ecol2 g) d := by
  induction g with
  | nil => rfl
  | cons r rs ih =>
      simp only [lookupF, ecol2, List.map_cons, lookupE]
      by_cases h : r.1 = d
      · rw [if_pos h, if_pos h]
      · rw [if_neg h, if_neg h]
        simpa [ecol2] using ih

/-- The aligned date set only depends on the frame's dates. -/
theorem unionKeysF_eq (g : EFrame2) (b : ETable) :
    unionKeysF g b = unionKeys (ecol2 g) b := by
  unfold unionKeysF unionKeys keysE ecol2
  rw [List.map_map]
  rfl

/-- Column-wise alignment: the second column of the aligned frame is the
aligned second column. -/
theorem ecol2_alignSubF (g : EFrame2) (b : ETable) :
    ecol2 (alignSubF g b) = alignSub (ecol2 g) b := by
  have h1 : ecol2 (alignSubF g b)
      = (unionKeysF g b).map (fun d => (d, EF.sub (lookupF g d).2 (lookupE b d))) := by
    unfold ecol2 alignSubF
    rw [List.map_map]
    rfl
  rw [h1, unionKeysF_eq]
  unfold alignSub
  apply List.map_congr_left
  intro d _
  rw [lookupF_snd]

/-- The second component of the frame pipeline's daily ratio is exactly
the single-asset pipeline on the second column. -/
theorem frame_daily_snd (s : ℚ → ℚ) (f : Frame2) (bench : Table) :
    (frame_daily s f bench).2
      = daily_sharpe_ratio s
          (excess_returns (stock_returns (col2 f)) (sp_returns bench)) := by
  have hvals : (alignSubF (pctChangeF f) (sp_returns bench)).map (fun r => r.2.2)
      = valsE (excess_returns (stock_returns (col2 f)) (sp_returns bench)) := by
    unfold excess_returns stock_returns
    rw [← ecol2_pctChangeF, ← ecol2_alignSubF]
    simp [valsE, ecol2, List.map_map, Function.comp]
  unfold frame_daily daily_sharpe_ratio avg_excess_return sd_excess_return
  rw [hvals]

/-- C10: undefined ratios propagate per asset and independently: if the
first asset's daily ratio is NaN, its annualized ratio (daily times the
annualization factor) is NaN as well; and each asset's ratio is a
function of its own column and the benchmark alone, so the second
asset's annualized ratio is unchanged between two frames sharing the
second column, whatever happens in the first column. -/
theorem nan_ratio_per_asset_independent (s : ℚ → ℚ) (factor : ℚ)
    (f g : Frame2) (bench : Table)
    (hnan : (frame_daily s f bench).1 = EF.nan)
    (hcol : col2 f = col2 g) :
    (frame_annual s factor f bench).1 = EF.nan
    ∧ (frame_daily s f bench).2
        = daily_sharpe_ratio s
            (excess_returns (stock_returns (col2 f)) (sp_returns bench))
    ∧ (frame_annual s factor f bench).2 = (frame_annual s factor g bench).2 := by
  refine ⟨?_, frame_daily_snd s f bench, ?_⟩
  · show EF.mul (frame_daily s f bench).1 (EF.fin factor) = EF.nan
    rw [hnan]
    rfl
  · show EF.mul (frame_daily s f bench).2 (EF.fin factor)
        = EF.mul (frame_daily s g bench).2 (EF.fin factor)
    rw [frame_daily_snd s f bench, frame_daily_snd s g bench, hcol]

/-- C10 witness: in the frame whose first asset is the constant price 10
(identical returns to the constant benchmark, hence zero-variance excess
and NaN daily ratio) and whose second asset is the 100, 102, 101
scenario, the first asset's annualized ratio is NaN, while the second
asset's annualized ratio agrees with the frame whose first column is
completely different. -/
theorem nan_ratio_per_asset_independent_holds :
    (frame_daily (fun q : ℚ => q)
        [(1, ((10 : ℚ), (100 : ℚ))), (2, (10, 102)), (3, (10, 101))]
        [(1, (10 : ℚ)), (2, 10), (3, 10)]).1 = EF.nan
    ∧ col2 [(1, ((10 : ℚ), (100 : ℚ))), (2, (10, 102)), (3, (10, 101))]
        = col2 [(1, ((7 : ℚ), (100 : ℚ))), (2, (9, 102)), (3, (11, 101))]
    ∧ (frame_annual (fun q : ℚ => q) 4
        [(1, ((10 : ℚ), (100 : ℚ))), (2, (10, 102)), (3, (10, 101))]
        [(1, (10 : ℚ)), (2, 10), (3, 10)]).1 = EF.nan
    ∧ (frame_annual (fun q : ℚ => q) 4
        [(1, ((10 : ℚ), (100 : ℚ))), (2, (10, 102)), (3, (10, 101))]
        [(1, (10 : ℚ)), (2, 10), (3, 10)]).2
      = (frame_annual (fun q : ℚ => q) 4
        [(1, ((7 : ℚ), (100 : ℚ))), (2, (9, 102)), (3, (11, 101))]
        [(1, (10 : ℚ)), (2, 10), (3, 10)]).2 := by
  have hnan : (frame_daily (fun q : ℚ => q)
      [(1, ((10 : ℚ), (100 : ℚ))), (2, (10, 102)), (3, (10, 101))]
      [(1, (10 : ℚ)), (2, 10), (3, 10)]).1 = EF.nan := by
    norm_num [frame_daily, alignSubF, pctChangeF, unionKeysF, sp_returns, pctChangeT,
      pctChangeVals, pctChangeVals.pctGo, sortKeys, insertKey, keysE, lookupE, lookupF,
      valsE, meanE, varE, nonNan, EF.add, EF.sub, EF.mul, EF.div, EF.sq, EF.sqrtE,
      List.dedup]
  have hcol : col2 [(1, ((10 : ℚ), (100 : ℚ))), (2, (10, 102)), (3, (10, 101))]
      = col2 [(1, ((7 : ℚ), (100 : ℚ))), (2, (9, 102)), (3, (11, 101))] := rfl
  have h := nan_ratio_per_asset_independent (fun q : ℚ => q) 4 _ _
    [(1, (10 : ℚ)), (2, 10), (3, 10)] hnan hcol
  exact ⟨hnan, hcol, h.1, h.2.2⟩
